import Mathlib

/-!
# Verification of the awspx ingestor core (`lib/aws/ingestor.py`)

This development gives a shallow embedding of the ingestion-and-relationship-
inference engine of awspx and proves/refutes the frozen specification claims
about it.

Embedding conventions:
* Python dicts become association lists (`List (String × Value)`); a dict's
  keys are unique, so `List.lookup` models `dict[k]`.
* Python sets of graph elements become lists with membership-checked insertion.
* The graph-element primitives (`lib/graph/base.py`, `lib/graph/nodes.py`,
  `lib/graph/edges.py`) and the resource catalog (`lib/aws/resources.py`) are
  not part of the source under verification; they are modelled from the spec
  (§3 data model, §6 catalog collaborator) where needed.  Each such definition
  carries a comment saying so.
-/

namespace Awspx

/-- Log levels of the console collaborator (`self.console.debug/info/warn/error`).
Modelled from the spec: §7 distinguishes diagnostic-level (debug), info,
warning and error reporting. -/
inductive LogLevel where
  | debug
  | info
  | warn
  | error
deriving DecidableEq

/-- A scalar-or-compound property value.  Modelled from the spec: §3 says a
graph element carries "a mapping of string property-name → scalar-or-compound
value"; compound values in the source are JSON-like lists and dicts. -/
inductive Value where
  | str (s : String)
  | vlist (l : List Value)
  | vdict (d : List (String × Value))

mutual

def Value.decEq : (a b : Value) → Decidable (a = b)
  | .str a, .str b =>
    match String.decEq a b with
    | .isTrue h => .isTrue (by rw [h])
    | .isFalse h => .isFalse (by intro hh; cases hh; exact h rfl)
  | .vlist a, .vlist b =>
    match Value.decEqList a b with
    | .isTrue h => .isTrue (by rw [h])
    | .isFalse h => .isFalse (by intro hh; cases hh; exact h rfl)
  | .vdict a, .vdict b =>
    match Value.decEqDict a b with
    | .isTrue h => .isTrue (by rw [h])
    | .isFalse h => .isFalse (by intro hh; cases hh; exact h rfl)
  | .str _, .vlist _ => .isFalse (by intro hh; cases hh)
  | .str _, .vdict _ => .isFalse (by intro hh; cases hh)
  | .vlist _, .str _ => .isFalse (by intro hh; cases hh)
  | .vlist _, .vdict _ => .isFalse (by intro hh; cases hh)
  | .vdict _, .str _ => .isFalse (by intro hh; cases hh)
  | .vdict _, .vlist _ => .isFalse (by intro hh; cases hh)

def Value.decEqList : (a b : List Value) → Decidable (a = b)
  | [], [] => .isTrue rfl
  | [], _ :: _ => .isFalse (by intro hh; cases hh)
  | _ :: _, [] => .isFalse (by intro hh; cases hh)
  | x :: xs, y :: ys =>
    match Value.decEq x y, Value.decEqList xs ys with
    | .isTrue h1, .isTrue h2 => .isTrue (by rw [h1, h2])
    | .isFalse h1, _ => .isFalse (by intro hh; cases hh; exact h1 rfl)
    | _, .isFalse h2 => .isFalse (by intro hh; cases hh; exact h2 rfl)

def Value.decEqDict : (a b : List (String × Value)) → Decidable (a = b)
  | [], [] => .isTrue rfl
  | [], _ :: _ => .isFalse (by intro hh; cases hh)
  | _ :: _, [] => .isFalse (by intro hh; cases hh)
  | (k1, v1) :: xs, (k2, v2) :: ys =>
    match String.decEq k1 k2, Value.decEq v1 v2, Value.decEqDict xs ys with
    | .isTrue h0, .isTrue h1, .isTrue h2 => .isTrue (by rw [h0, h1, h2])
    | .isFalse h0, _, _ => .isFalse (by intro hh; cases hh; exact h0 rfl)
    | _, .isFalse h1, _ => .isFalse (by intro hh; cases hh; exact h1 rfl)
    | _, _, .isFalse h2 => .isFalse (by intro hh; cases hh; exact h2 rfl)

end

instance : DecidableEq Value := Value.decEq

/-- A graph node.  Modelled from the spec: §3 "Graph Element" — a list of
string labels (the canonical type label first) and a property map. -/
structure GNode where
  labels : List String
  props : List (String × Value)
deriving DecidableEq

/-- Python `element.properties()[k]` / `element.get(k)`: dict lookup. -/
def GNode.get? (n : GNode) (k : String) : Option Value :=
  n.props.lookup k

/-- Python `element.label()`: the canonical (first) type label.
Modelled from the spec: §3 "exactly one canonical type label plus zero or
more category labels". -/
def GNode.label (n : GNode) : String :=
  n.labels.headD ""

/-- Python `node.id()`: a `Resource`'s identity is its ARN property.
Modelled from the spec: §3 "Identity = its canonical ARN-equivalent string.
Must carry `Name` and an ARN-equivalent `Arn` property." -/
def GNode.id (n : GNode) : String :=
  match n.get? "Arn" with
  | some (.str s) => s
  | _ => ""

/-- Python `node.get("Name")` as a string. -/
def GNode.nameOf (n : GNode) : String :=
  match n.get? "Name" with
  | some (.str s) => s
  | _ => ""

/-- Python `str(node)`.  Modelled from the spec: identity is the ARN-equivalent
string, and the ingestor itself equates `str(r)` with an ARN at its other
call sites (`str(i) == resource.get("IamInstanceProfile")["Arn"]`, line 141,
and `str(r) == resource.get("Role")` against a role ARN, line 175), so
`str` on a node is its identity. -/
def strOf (n : GNode) : String :=
  n.id

/-- Python `node.type(label)`: label-membership test.  Modelled from the spec:
labels are "classification tags" and type tests in the source are membership
tests against the label list. -/
def GNode.type (n : GNode) (l : String) : Bool :=
  l ∈ n.labels

/-- A graph edge (`lib/graph/edges.py`): one relationship-type label, a
property map, an ordered source and target.  Modelled from the spec: §3
"Edge variants (all: ordered source Node, target Node, property map, a
single relationship-type label)".  Source and target are `Option` because
`IngestionManager.save` (line 332) explicitly tests `e.target() is not None`. -/
structure Edge where
  elabel : String
  props : List (String × Value)
  source : Option GNode
  target : Option GNode
deriving DecidableEq

/-- Python `str(edge)` for an `Action` edge is the action name held in its `Name`
property.  Modelled from the spec: an Action edge records "a named
operation"; the source filters actions with `str(action).startswith(...)`. -/
def Edge.strOf (e : Edge) : String :=
  match e.props.lookup "Name" with
  | some (.str s) => s
  | _ => ""

/-- The identity string of an optional endpoint. -/
def optId : Option GNode → String
  | some n => n.id
  | none => ""

/-- A graph element: the `Elements` container of the source holds both
nodes and edges. -/
inductive Element where
  | node (n : GNode)
  | edge (e : Edge)
deriving DecidableEq

/-- Python `element.labels()`. -/
def Element.labelsList : Element → List String
  | .node n => n.labels
  | .edge e => [e.elabel]

/-- Python `element.label()`. -/
def Element.labelOf : Element → String
  | .node n => n.label
  | .edge e => e.elabel

/-- Python `element.id()` (only ever used on nodes by the admission-control code). -/
def Element.idOf : Element → String
  | .node n => n.id
  | .edge _ => ""

/-- Element equality used by the set container.  Modelled from the spec:
§3 "Two elements are equal iff their identity and primary label match";
for an edge the identity is the (source identity, target identity) pair. -/
def eequiv : Element → Element → Bool
  | .node a, .node b => a.id == b.id && a.label == b.label
  | .edge a, .edge b =>
      a.elabel == b.elabel && optId a.source == optId b.source
        && optId a.target == optId b.target
  | _, _ => false

/-- Python `Elements.add` of the underlying container.  Modelled from the spec:
§3 "the containing collection is a set — re-adding an equal element is a
no-op". -/
def elemsAdd (g : List Element) (e : Element) : List Element :=
  if g.any (fun x => eequiv x e) then g else g ++ [e]

/-- Python `IngestionManager.add` (lines 375-392): insert, compare sizes, and
report.  A `TRANSITIVE` addition is reported at info level; `ACTION` and
`TRUSTS` additions fall into the silent `pass` branch; anything else that
grew the collection is reported at info level.  Returns the new collection
and the emitted log events. -/
def managerAdd (g : List Element) (e : Element) : List Element × List (LogLevel × String) :=
  let g2 := elemsAdd g e
  (g2,
    if g2.length = g.length then []
    else if "TRANSITIVE" ∈ e.labelsList then [(LogLevel.info, "Added relationship")]
    else if "ACTION" ∈ e.labelsList ∨ "TRUSTS" ∈ e.labelsList then []
    else [(LogLevel.info, "Added element")])

/-- User scope configuration of an `Ingestor` (`self.types`,
`self._only_arns`, `self._skip_arns`). -/
structure IngestorConfig where
  types : List String
  onlyArns : List String
  skipArns : List String

/-- Python `Ingestor.add` (lines 909-941): type filtering for `Resource`/`Generic`
elements, ARN allow/deny filtering for `Resource` elements (both rejections
logged at debug level), then the size-compared set insertion with info-level
reporting for `Resource`, `Generic`, `ASSOCIATIVE` and `TRANSITIVE`
additions; any other addition is silent. -/
def ingestorAdd (cfg : IngestorConfig) (g : List Element) (e : Element) :
    List Element × List (LogLevel × String) :=
  if ("Resource" ∈ e.labelsList ∨ "Generic" ∈ e.labelsList)
      ∧ e.labelOf ∉ cfg.types then
    (g, [(LogLevel.debug, "Skipping: type does not match user specifications")])
  else if ("Resource" ∈ e.labelsList ∨ "Generic" ∈ e.labelsList)
      ∧ "Resource" ∈ e.labelsList
      ∧ ((cfg.onlyArns.length > 0 ∧ e.idOf ∉ cfg.onlyArns)
         ∨ (cfg.skipArns.length > 0 ∧ e.idOf ∈ cfg.skipArns)) then
    (g, [(LogLevel.debug, "Skipping: ARN does not match user specifications")])
  else
    (elemsAdd g e,
      if (elemsAdd g e).length = g.length then []
      else if "Resource" ∈ e.labelsList then [(LogLevel.info, "Added Resource")]
      else if "Generic" ∈ e.labelsList then [(LogLevel.info, "Added Generic")]
      else if "ASSOCIATIVE" ∈ e.labelsList ∨ "TRANSITIVE" ∈ e.labelsList then
        [(LogLevel.info, "Added relationship")]
      else [])

/-- Folding a batch of elements through `Ingestor.add`, accumulating the
log events (`Ingestor.update`, lines 905-907). -/
def ingestBatch (cfg : IngestorConfig) (g : List Element) (batch : List Element) :
    List Element × List (LogLevel × String) :=
  batch.foldl
    (fun acc e =>
      let (g2, logs) := ingestorAdd cfg acc.1 e
      (g2, acc.2 ++ logs))
    (g, [])

/-! ## Associative resolver: canonical edge orientation (lines 899-903) -/

/-- Python `sorted((resource, associate), key=lambda r: r.id())` on a two-element
tuple: a stable sort by identity string, so the pair is swapped exactly when
the second identity is strictly smaller. -/
def orderPair (a b : GNode) : GNode × GNode :=
  if b.id < a.id then (b, a) else (a, b)

/-- The `Associative` edge built from an ordered pair (line 902-903). -/
def mkAssociative (src tgt : GNode) : Edge :=
  { elabel := "ASSOCIATIVE", props := [("Name", Value.str "Attached")],
    source := some src, target := some tgt }

/-- The edge emitted for a valid pair, after canonical ordering. -/
def assocEdgeFor (r s : GNode) : Edge :=
  let p := orderPair r s
  mkAssociative p.1 p.2

/-! ## Trust & Action resolver: assume-role statements (lines 242-259) -/

/-- The `Trusts` edge constructor used at lines 250-252 and 257-259: it
reuses the action's property map and places the endpoints as the source
dictates. -/
def mkTrusts (props : List (String × Value)) (s t : Option GNode) : Edge :=
  { elabel := "TRUSTS", props := props, source := s, target := t }

/-- Helper for `pySplitColon`, walking the character list. -/
def splitAux : List Char → List Char → List String
  | [], acc => [String.mk acc.reverse]
  | c :: cs, acc =>
    if c = ':' then String.mk acc.reverse :: splitAux cs []
    else splitAux cs (c :: acc)

/-- Python `s.split(':')` (line 248): split on every colon, keeping empty
fields. -/
def pySplitColon (s : String) : List String :=
  splitAux s.data []

/-- Python `s.startswith(p)` (line 244). -/
def strStartsWith (s p : String) : Bool :=
  s.data.take p.data.length == p.data

/-- The account-wide-wildcard test of lines 247-249: the action's source
principal is an `AWS::Account` node whose identity, split on `:`, has at
least five components with the fifth equal to this account. -/
def isAccountWide (account : String) (n : GNode) : Bool :=
  n.type "AWS::Account"
    && decide (5 ≤ (pySplitColon n.id).length)
    && ((pySplitColon n.id).getD 4 "" == account)

/-- Lines 243-259: for each action of the role's trust document whose name
begins with `sts:AssumeRole`, either expand an account-wide-wildcard
principal into one `Trusts` edge per known IAM user/role (source = the
action's target, i.e. the trusted role), dropping the action itself, or keep
the action together with a `Trusts` edge from the action's target (the role)
to the action's source (the principal).  An action whose source is absent
cannot occur under the evaluator contract; it is routed to the non-wildcard
branch. -/
def trustStatements (account : String) (entities : List GNode) (actions : List Edge) :
    List Edge :=
  (actions.filter (fun a => strStartsWith a.strOf "sts:AssumeRole")).flatMap
    (fun action =>
      match action.source with
      | some src =>
        if isAccountWide account src then
          entities.map (fun entity => mkTrusts action.props action.target (some entity))
        else
          [action, mkTrusts action.props action.target action.source]
      | none => [action, mkTrusts action.props action.target action.source])

/-- The IAM entities a wildcard trust expands over (lines 198-199): known
resources whose canonical label is `AWS::Iam::User` or `AWS::Iam::Role`. -/
def iamEntities (resources : List GNode) : List GNode :=
  resources.filter (fun e => e.label ∈ ["AWS::Iam::User", "AWS::Iam::Role"])

/-! ## SessionClientWrapper (lines 395-447) -/

/-- The outcome of one call to the provider API: a result, or a
`ClientError` carrying an error code and message. -/
inductive CallResult (α : Type) where
  | ok (a : α)
  | clientError (code : String) (msg : String)
deriving DecidableEq

/-- The recoverable authorization-denial error codes (lines 397-402). -/
def swcCodes : List String :=
  ["AccessDenied", "AccessDeniedException",
   "IllegalLocationConstraintException", "UnauthorizedOperation"]

/-- The `hook` closure of `SessionClientWrapper.__getattr__` (lines
425-442): `result` starts out as the empty result; a `ClientError` whose
code is in the denial list is logged as a warning and the empty result is
returned; any other `ClientError` is re-raised; a successful call's result
passes through. -/
def swcHook {α : Type} (empty : α) (call : CallResult α) :
    CallResult α × List (LogLevel × String) :=
  match call with
  | .ok a => (.ok a, [])
  | .clientError c m =>
    if c ∈ swcCodes then (.ok empty, [(LogLevel.warn, m)])
    else (.clientError c m, [])

/-- Python `SessionClientWrapper.__iter__` (lines 409-417) on a stream that yields
`items` and then either finishes or raises a `ClientError`: the items are
passed through; a denial-class error is logged as a warning and the
iteration ends cleanly; any other error is re-raised. -/
def swcIter {α : Type} (items : List α) (term : Option (String × String)) :
    List α × Option (String × String) × List (LogLevel × String) :=
  match term with
  | none => (items, none, [])
  | some (c, m) =>
    if c ∈ swcCodes then (items, none, [(LogLevel.warn, m)])
    else (items, some (c, m), [])

/-! ## Scope configuration propagation (lines 60-62 and 503-504) -/

/-- Python `IngestionManager.__init__` lines 60-62: with a non-empty ARN allow-list
the catalog label of every allowed ARN is merged into the type allow-list
(`list(set(only_types + [RESOURCES.label(arn) for arn in only_arns]))`).
`label` is the catalog collaborator, modelled from the spec: §6 "given an
ARN-equivalent string, returns the best-matching type label". -/
def effectiveOnlyTypes (label : String → String) (onlyTypes onlyArns : List String) :
    List String :=
  if onlyArns.length > 0 then (onlyTypes ++ onlyArns.map label).dedup
  else onlyTypes

/-- Python `Ingestor.__init__` lines 503-504: drop the service's types that are
skip-listed or, when the type allow-list is non-empty, not allow-listed. -/
def typeFilter (types skipTypes onlyTypes : List String) : List String :=
  types.filter (fun t => t ∉ skipTypes ∧ (onlyTypes.length = 0 ∨ t ∈ onlyTypes))

/-! ## Export encoder: edge rows (lines 324-334) -/

/-- The edge-table rows of `IngestionManager.save` (lines 329-332):
one row per edge *whose target is not `None`* — `[[e.source().id()] + cells
+ [e.target().id(), label] for e in elements if e.target() is not None]`.
Property cells go through the caller's header and the external `stringify`
encoding. -/
def saveEdgeRows (stringify : Value → String) (label : String)
    (header : List String) (elements : List Edge) : List (List String) :=
  (elements.filter (fun e => !e.target.isNone)).map
    (fun e =>
      [optId e.source]
        ++ header.map (fun f =>
            match e.props.lookup f with
            | some v => stringify v
            | none => "")
        ++ [optId e.target, label])

/-! ## Transitive resolver (`IngestionManager.load_transitives`, lines 83-183)

The pass iterates every `Resource`, matching reference properties against
the group/role/policy/instance-profile collections captured before the loop.
Each iteration only mutates the iterated resource's own property map, and
matching uses only the immutable `Arn`/`Name` values of the captured
collections, so the sequential in-place pass is modelled as an independent
per-resource transformation.  Edges capture the node values as they stood
when the edge was created; their identity-relevant fields never change
during the pass. -/

/-- The `Transitive` edge of lines 108-109 etc. -/
def mkTransitive (src tgt : GNode) : Edge :=
  { elabel := "TRANSITIVE", props := [("Name", Value.str "Attached")],
    source := some src, target := some tgt }

/-- Python `[policy["PolicyArn"] for policy in resource.get("AttachedManagedPolicies")]`
(lines 102-103).  A malformed entry would raise in Python; the claims only
concern well-formed property values, where this extraction is exact. -/
def policyArnsOf : Value → List String
  | .vlist l =>
    l.filterMap (fun d =>
      match d with
      | .vdict kvs =>
        match kvs.lookup "PolicyArn" with
        | some (.str s) => some s
        | _ => none
      | _ => none)
  | _ => []

/-- Python `resource.get("GroupList")` (line 121): a list of group names. -/
def groupNamesOf : Value → List String
  | .vlist l =>
    l.filterMap (fun d => match d with | .str s => some s | _ => none)
  | _ => []

/-- Python `list(map(lambda r: r["Arn"], resource.get("Roles")))` (lines 155-156). -/
def roleArnsOf : Value → List String
  | .vlist l =>
    l.filterMap (fun d =>
      match d with
      | .vdict kvs =>
        match kvs.lookup "Arn" with
        | some (.str s) => some s
        | _ => none
      | _ => none)
  | _ => []

/-- Python `resource.get("IamInstanceProfile")["Arn"]` (line 141). -/
def dictArnOf : Value → Option String
  | .vdict kvs =>
    match kvs.lookup "Arn" with
    | some (.str s) => some s
    | _ => none
  | _ => none

/-- Python `del resource.properties()[k]` (lines 115, 134, 149, 168, 183). -/
def delProp (n : GNode) (k : String) : GNode :=
  { n with props := n.props.filter (fun p => !(p.1 == k)) }

/-- The matching loop shared by lines 105-113 (policies), 123-131 (groups)
and 158-165 (roles): iterate the captured collection, lazily re-testing the
shrinking reference list (`filter` over a rebound closure variable), add one
`Transitive` edge per match, and drop every reference equal to `str(match)`
from the list.  `key` extracts the value the filter predicate compares
(`r.id()` for ARN references, `r.get("Name")` for group names); removal
always compares against `str(match)`. -/
def transitiveLoop (key : GNode → String) (src : GNode)
    (collection : List GNode) (refs0 : List String) :
    List Edge × List String :=
  collection.foldl
    (fun acc r =>
      if key r ∈ acc.2 then
        (acc.1 ++ [mkTransitive src r], acc.2.filter (fun p => !(p == strOf r)))
      else acc)
    ([], refs0)

/-- Branch (User|Group|Role) --> (Policy), lines 100-115. -/
def stageAttachedPolicies (policies : List GNode) (s : GNode × List Edge) :
    GNode × List Edge :=
  if s.1.label ∈ ["AWS::Iam::User", "AWS::Iam::Group", "AWS::Iam::Role"] then
    match s.1.get? "AttachedManagedPolicies" with
    | some v =>
      let it := transitiveLoop GNode.id s.1 policies (policyArnsOf v)
      ((if ¬it.2.length > 0 then delProp s.1 "AttachedManagedPolicies" else s.1),
        s.2 ++ it.1)
    | _ => s
  else s

/-- Branch (User) --> (Group), lines 118-134. -/
def stageGroupList (groups : List GNode) (s : GNode × List Edge) :
    GNode × List Edge :=
  if s.1.label ∈ ["AWS::Iam::User"] then
    match s.1.get? "GroupList" with
    | some v =>
      let it := transitiveLoop GNode.nameOf s.1 groups (groupNamesOf v)
      ((if ¬it.2.length > 0 then delProp s.1 "GroupList" else s.1), s.2 ++ it.1)
    | _ => s
  else s

/-- Branch (Instance) --> (InstanceProfile), lines 137-149. -/
def stageInstanceProfile (instanceProfiles : List GNode) (s : GNode × List Edge) :
    GNode × List Edge :=
  if s.1.label ∈ ["AWS::Ec2::Instance"] then
    match s.1.get? "IamInstanceProfile" with
    | some v =>
      match instanceProfiles.find? (fun i => strOf i == (dictArnOf v).getD "") with
      | some ip => (delProp s.1 "IamInstanceProfile", s.2 ++ [mkTransitive s.1 ip])
      | none => s
    | _ => s
  else s

/-- Branch (InstanceProfile) --> (Role), lines 152-168. -/
def stageProfileRoles (roles : List GNode) (s : GNode × List Edge) :
    GNode × List Edge :=
  if s.1.label ∈ ["AWS::Iam::InstanceProfile"] then
    match s.1.get? "Roles" with
    | some v =>
      let it := transitiveLoop GNode.id s.1 roles (roleArnsOf v)
      ((if ¬it.2.length > 0 then delProp s.1 "Roles" else s.1), s.2 ++ it.1)
    | _ => s
  else s

/-- Branch (Function) --> (Role), lines 171-183. -/
def stageFunctionRole (roles : List GNode) (s : GNode × List Edge) :
    GNode × List Edge :=
  if s.1.label ∈ ["AWS::Lambda::Function"] then
    match s.1.get? "Role" with
    | some (.str roleArn) =>
      match roles.find? (fun r => strOf r == roleArn) with
      | some role => (delProp s.1 "Role", s.2 ++ [mkTransitive s.1 role])
      | none => s
    | _ => s
  else s

/-- Process one resource through all five branches of the pass (lines
97-183), returning its (possibly property-stripped) final state and the
`Transitive` edges created for it. -/
def processResource (groups roles policies instanceProfiles : List GNode)
    (r0 : GNode) : GNode × List Edge :=
  stageFunctionRole roles
    (stageProfileRoles roles
      (stageInstanceProfile instanceProfiles
        (stageGroupList groups
          (stageAttachedPolicies policies (r0, [])))))

/-- Python `IngestionManager.load_transitives` over the resource set: capture the
group/role/policy/instance-profile collections (lines 85-89), then process
every resource (lines 91-183).  Returns the final resources and the edges
handed to `self.add`. -/
def loadTransitives (resources : List GNode) : List GNode × List Edge :=
  let groups := resources.filter (fun n => "AWS::Iam::Group" ∈ n.labels)
  let roles := resources.filter (fun n => "AWS::Iam::Role" ∈ n.labels)
  let policies := resources.filter (fun n => "AWS::Iam::Policy" ∈ n.labels)
  let instanceProfiles :=
    resources.filter (fun n => "AWS::Iam::InstanceProfile" ∈ n.labels)
  let results := resources.map (processResource groups roles policies instanceProfiles)
  (results.map Prod.fst, (results.map Prod.snd).flatten)

/-! ## Associative resolver: ambiguity enumeration (lines 874-903)

`refs[0]` is a dict capture-name → candidate-value set; it is modelled as an
association list of `(key, values)` with unique keys.  Python's
`itertools.combinations(l, r)` enumerates exactly the length-`r`
subsequences of `l`, i.e. `List.sublistsLen r l`. -/

/-- Python `[{K: v} for K, V in ambiguous.items() for v in V]` flattened to plain
pairs: each capture name paired with each of its candidate values, in
order. -/
def flatPairs (amb : List (String × List String)) : List (String × String) :=
  amb.flatMap (fun p => p.2.map (fun v => (p.1, v)))

/-- The keys of a pair list. -/
def keysOf (s : List (String × String)) : List String :=
  s.map Prod.fst

/-- Python `len({k: v for d in list(x) for k, v in d.items()})`: merging singleton
dicts with later assignments winning leaves one entry per *distinct* key,
so the merged dict's size is the number of distinct keys. -/
def mergedSize (s : List (String × String)) : Nat :=
  (keysOf s).dedup.length

/-- Lines 880-884, the combination enumeration: choose `len(ambiguous)` of
the flattened pairs (`combinations(..., len(ambiguous))`), and keep a
combination iff its merged dict has one entry per ambiguous capture
(`if len(c) == len(ambiguous)`). -/
def comboRefs (amb : List (String × List String)) : List (List (String × String)) :=
  ((flatPairs amb).sublistsLen amb.length).filter
    (fun s => mergedSize s == amb.length)

/-- Python dict lookup on a merge written as concatenation: the *later*
binding wins (`{**c, **fixed}`). -/
def pyLookup (l : List (String × String)) (k : String) : Option String :=
  (l.reverse.find? (fun p => p.1 == k)).map Prod.snd

/-- Lines 874-884 in full: when every capture resolved to exactly one value
the single reference `refs[0]` survives unchanged; otherwise each surviving
combination of the ambiguous captures is merged with the single-valued
captures held fixed (`{**c, **{k: list(refs[0][k])[0] ...}}`, the fixed part
assigned last). -/
def codeRefs (refs0 : List (String × List String)) : List (List (String × String)) :=
  if refs0.all (fun p => p.2.length == 1) then
    [refs0.map (fun p => (p.1, p.2.headD ""))]
  else
    let ambiguous := refs0.filter (fun p => decide (p.2.length > 1))
    let fixedPart := (refs0.filter (fun p => !decide (p.2.length > 1))).map
      (fun p => (p.1, p.2.headD ""))
    (comboRefs ambiguous).map (fun c => c ++ fixedPart)

/-- Lines 889-891 and 899-903: look up the existing entity with exactly the
candidate identity; on a hit, build the canonically ordered edge. -/
def edgeFor (g : List GNode) (r : GNode) (arn : String) : Option Edge :=
  (g.find? (fun x => x.id == arn)).map (fun associate => assocEdgeFor r associate)

/-- Lines 886-903: emit one edge per candidate identity that resolves, with
the set-semantics insertion of `add` deduplicating repeats. -/
def emitAssoc (g : List GNode) (r : GNode) (arns : List String) : List Edge :=
  arns.foldl
    (fun acc arn =>
      match edgeFor g r arn with
      | none => acc
      | some e => if e ∈ acc then acc else acc ++ [e])
    []

/-! ### Counting the surviving combinations -/

lemma keysOf_flatPairs_subset (amb : List (String × List String)) :
    keysOf (flatPairs amb) ⊆ amb.map Prod.fst := by
  intro x hx
  simp only [keysOf, List.mem_map] at hx
  obtain ⟨a, ha, rfl⟩ := hx
  simp only [flatPairs, List.mem_flatMap, List.mem_map] at ha
  obtain ⟨p, hp, v, _, rfl⟩ := ha
  exact List.mem_map.mpr ⟨p, hp, rfl⟩

lemma mergedSize_le_of_sublist {t F : List (String × String)} (h : t.Sublist F) :
    mergedSize t ≤ (keysOf F).dedup.length := by
  have h1 : (keysOf t).Sublist (keysOf F) := h.map Prod.fst
  have h2 : (keysOf t).dedup ⊆ (keysOf F).dedup := fun x hx =>
    List.mem_dedup.mpr (h1.subset (List.mem_dedup.mp hx))
  exact ((List.nodup_dedup _).subperm h2).length_le

lemma mergedSize_le_length (t : List (String × String)) :
    mergedSize t ≤ t.length := by
  have h := (List.dedup_sublist (keysOf t)).length_le
  simpa [mergedSize, keysOf] using h

/-- Prepending a block of pairs that all carry the key `k` does not change
the filtered count when the filter requires `k` to be absent. -/
lemma filter_sublistsLen_key_block (k : String) (p : List (String × String) → Bool) :
    ∀ (A : List (String × String)) (n : ℕ) (F : List (String × String)),
      (∀ a ∈ A, a.1 = k) →
      (((A ++ F).sublistsLen n).filter
          (fun t => !decide (k ∈ keysOf t) && p t)).length
        = ((F.sublistsLen n).filter
            (fun t => !decide (k ∈ keysOf t) && p t)).length := by
  intro A
  induction A with
  | nil => intro n F _; rfl
  | cons a A ih =>
    intro n F hA
    have ha : a.1 = k := hA a (by simp)
    have hA' : ∀ x ∈ A, x.1 = k := fun x hx => hA x (List.mem_cons_of_mem a hx)
    cases n with
    | zero => simp [List.sublistsLen_zero]
    | succ n =>
      rw [List.cons_append, List.sublistsLen_succ_cons, List.filter_append,
        List.length_append, List.filter_map]
      have hz : (((A ++ F).sublistsLen n).filter
          ((fun t => !decide (k ∈ keysOf t) && p t) ∘ (a :: ·))) = [] := by
        rw [List.filter_eq_nil_iff]
        intro t _
        simp [Function.comp, keysOf, ha]
      rw [hz]
      simp [ih (n + 1) F hA']

/-- One block step: among the length-`(n+1)` subsequences of
`(k,v₁)…(k,vₘ) ++ F` (where `F` avoids the key `k` and offers at most `n`
distinct keys), those whose merged dict has `n+1` entries are counted by
`m` times the number of length-`n` subsequences of `F` with `n` distinct
keys. -/
lemma filter_sublistsLen_block_count (k : String) (F : List (String × String)) (n : ℕ)
    (hF : ∀ a ∈ F, a.1 ≠ k) (hn : (keysOf F).dedup.length ≤ n) :
    ∀ vs : List String,
      (((vs.map (fun v => (k, v)) ++ F).sublistsLen (n + 1)).filter
          (fun t => mergedSize t == n + 1)).length
        = vs.length * ((F.sublistsLen n).filter (fun t => mergedSize t == n)).length := by
  intro vs
  induction vs with
  | nil =>
    have hemp : ((F.sublistsLen (n + 1)).filter (fun t => mergedSize t == n + 1)) = [] := by
      rw [List.filter_eq_nil_iff]
      intro t ht
      have hsub : t.Sublist F := (List.mem_sublistsLen.mp ht).1
      have hle : mergedSize t ≤ n := le_trans (mergedSize_le_of_sublist hsub) hn
      simp only [beq_iff_eq]
      omega
    simp [hemp]
  | cons v vs ih =>
    rw [List.map_cons, List.cons_append, List.sublistsLen_succ_cons,
      List.filter_append, List.length_append, ih, List.filter_map, List.length_map]
    have hcongr : (((vs.map (fun v => (k, v)) ++ F).sublistsLen n).filter
          ((fun t => mergedSize t == n + 1) ∘ ((k, v) :: ·)))
        = (((vs.map (fun v => (k, v)) ++ F).sublistsLen n).filter
            (fun t => !decide (k ∈ keysOf t) && (mergedSize t == n))) := by
      apply List.filter_congr
      intro t ht
      have hlen : t.length = n := (List.mem_sublistsLen.mp ht).2
      have htle : mergedSize t ≤ n := hlen ▸ mergedSize_le_length t
      apply Bool.eq_iff_iff.mpr
      simp only [Function.comp_apply, beq_iff_eq, Bool.and_eq_true, Bool.not_eq_true',
        decide_eq_false_iff_not]
      by_cases hk : k ∈ keysOf t
      · have h1 : mergedSize ((k, v) :: t) = mergedSize t := by
          simp [mergedSize, keysOf, List.dedup_cons_of_mem (show k ∈ t.map Prod.fst from hk)]
        constructor
        · intro h; omega
        · rintro ⟨hk', _⟩; exact absurd hk hk'
      · have h1 : mergedSize ((k, v) :: t) = mergedSize t + 1 := by
          simp [mergedSize, keysOf,
            List.dedup_cons_of_not_mem (show k ∉ t.map Prod.fst from hk)]
        constructor
        · intro h; exact ⟨hk, by omega⟩
        · rintro ⟨_, h⟩; omega
    rw [hcongr,
      filter_sublistsLen_key_block k (fun t => mergedSize t == n)
        (vs.map (fun v => (k, v))) n F
        (by intro a ha; simp only [List.mem_map] at ha; obtain ⟨x, _, rfl⟩ := ha; rfl)]
    have hdrop : ((F.sublistsLen n).filter
          (fun t => !decide (k ∈ keysOf t) && (mergedSize t == n)))
        = ((F.sublistsLen n).filter (fun t => mergedSize t == n)) := by
      apply List.filter_congr
      intro t ht
      have hsub : t.Sublist F := (List.mem_sublistsLen.mp ht).1
      have hkt : k ∉ keysOf t := by
        intro hmem
        have : k ∈ keysOf F := (hsub.map Prod.fst).subset hmem
        simp only [keysOf, List.mem_map] at this
        obtain ⟨a, ha, hak⟩ := this
        exact hF a ha hak
      simp [hkt]
    rw [hdrop]
    simp only [List.length_cons]
    ring

/-- Ambiguity completeness at the combination level: with pairwise-distinct
capture names, exactly the product of the candidate-value cardinalities
survives the enumeration of lines 880-884. -/
theorem comboRefs_length :
    ∀ (amb : List (String × List String)), (amb.map Prod.fst).Nodup →
      (comboRefs amb).length = (amb.map (fun p => p.2.length)).prod := by
  intro amb
  induction amb with
  | nil => intro _; rfl
  | cons p rest ih =>
    intro hnd
    obtain ⟨k, vs⟩ := p
    have hnd2 : (k :: rest.map Prod.fst).Nodup := by
      simpa only [List.map_cons] using hnd
    have hk : k ∉ rest.map Prod.fst := (List.nodup_cons.mp hnd2).1
    have hnd' : (rest.map Prod.fst).Nodup := (List.nodup_cons.mp hnd2).2
    have hflat : flatPairs ((k, vs) :: rest)
        = vs.map (fun v => (k, v)) ++ flatPairs rest := by
      simp [flatPairs]
    have hF : ∀ a ∈ flatPairs rest, a.1 ≠ k := by
      intro a ha hak
      exact hk (hak ▸ keysOf_flatPairs_subset rest (List.mem_map.mpr ⟨a, ha, rfl⟩))
    have hn : (keysOf (flatPairs rest)).dedup.length ≤ rest.length := by
      have hsub : (keysOf (flatPairs rest)).dedup ⊆ rest.map Prod.fst := fun x hx =>
        keysOf_flatPairs_subset rest (List.mem_dedup.mp hx)
      have := ((List.nodup_dedup _).subperm hsub).length_le
      simpa using this
    have hmain := filter_sublistsLen_block_count k (flatPairs rest) rest.length hF hn vs
    simp only [comboRefs, hflat, List.length_cons]
    rw [hmain]
    have hco : (((flatPairs rest).sublistsLen rest.length).filter
        (fun t => mergedSize t == rest.length)) = comboRefs rest := rfl
    rw [hco, ih hnd']
    simp

/-! ### Facts about the set container and the admission functions -/

lemma eequiv_refl (e : Element) : eequiv e e = true := by
  cases e <;> simp [eequiv]

lemma elemsAdd_self (g : List Element) (e : Element) :
    elemsAdd (elemsAdd g e) e = elemsAdd g e := by
  unfold elemsAdd
  by_cases h : g.any (fun x => eequiv x e) = true
  · simp [h]
  · have h2 : ((g ++ [e]).any (fun x => eequiv x e)) = true :=
      List.any_eq_true.mpr ⟨e, by simp, eequiv_refl e⟩
    simp [h, h2]

lemma elemsAdd_length (g : List Element) (e : Element) :
    (elemsAdd g e).length = g.length ∨ (elemsAdd g e).length = g.length + 1 := by
  unfold elemsAdd
  by_cases h : g.any (fun x => eequiv x e) = true
  · simp [h]
  · simp [h]

/-! ### Property deletion preserves identity -/

lemma lookup_filter_ne (props : List (String × Value)) (k key : String)
    (hk : key ≠ k) :
    (props.filter (fun p => !(p.1 == k))).lookup key = props.lookup key := by
  induction props with
  | nil => rfl
  | cons a l ih =>
    obtain ⟨ak, av⟩ := a
    by_cases hak : ak = k
    · have hf : (!(((ak, av) : String × Value).1 == k)) = false := by simp [hak]
      have hkey : (key == ak) = false := by
        rw [beq_eq_false_iff_ne, hak]; exact hk
      simp only [List.filter_cons, hf, Bool.false_eq_true, if_false]
      rw [List.lookup_cons, hkey, ih]
    · have hf : (!(((ak, av) : String × Value).1 == k)) = true := by simp [hak]
      simp only [List.filter_cons, hf, if_true]
      rw [List.lookup_cons, List.lookup_cons]
      by_cases hkey : key = ak
      · simp [hkey]
      · have hb : (key == ak) = false := beq_eq_false_iff_ne.mpr hkey
        rw [hb, ih]

lemma delProp_labels (n : GNode) (k : String) : (delProp n k).labels = n.labels := rfl

lemma delProp_id (n : GNode) {k : String} (hk : "Arn" ≠ k) :
    (delProp n k).id = n.id := by
  unfold GNode.id GNode.get? delProp
  simp only
  rw [lookup_filter_ne n.props k "Arn" hk]

/-! ### Transitive edges reference known nodes -/

lemma transitiveLoop_edges (key : GNode → String) (src : GNode) :
    ∀ (coll : List GNode) (acc : List Edge × List String),
      ∀ e ∈ (coll.foldl (fun acc r =>
          if key r ∈ acc.2 then
            (acc.1 ++ [mkTransitive src r], acc.2.filter (fun p => !(p == strOf r)))
          else acc) acc).1,
        e ∈ acc.1 ∨ (e.source = some src ∧ ∃ t ∈ coll, e.target = some t) := by
  intro coll
  induction coll with
  | nil => intro acc e he; exact Or.inl he
  | cons r coll ih =>
    intro acc e he
    rw [List.foldl_cons] at he
    rcases ih _ e he with h | ⟨hs, t, ht, htg⟩
    · by_cases hc : key r ∈ acc.2
      · rw [if_pos hc] at h
        rcases List.mem_append.mp h with h' | h'
        · exact Or.inl h'
        · rcases List.mem_singleton.mp h' with rfl
          exact Or.inr ⟨rfl, r, List.mem_cons_self r coll, rfl⟩
      · rw [if_neg hc] at h
        exact Or.inl h
    · exact Or.inr ⟨hs, t, List.mem_cons_of_mem r ht, htg⟩

lemma transitiveLoop_edges_spec (key : GNode → String) (src : GNode)
    (coll : List GNode) (refs0 : List String) :
    ∀ e ∈ (transitiveLoop key src coll refs0).1,
      e.source = some src ∧ ∃ t ∈ coll, e.target = some t := by
  intro e he
  rcases transitiveLoop_edges key src coll ([], refs0) e he with h | h
  · exact absurd h (List.not_mem_nil e)
  · exact h

/-- Shape of every per-branch stage: labels and identity of the node are
preserved, and each new edge originates at the stage's input node and
targets a member of the stage's collection. -/
def StageSpec (coll : List GNode) (s s' : GNode × List Edge) : Prop :=
  s'.1.labels = s.1.labels
  ∧ s'.1.id = s.1.id
  ∧ ∀ e ∈ s'.2, e ∈ s.2 ∨ (e.source = some s.1 ∧ ∃ t ∈ coll, e.target = some t)

lemma stageAttachedPolicies_spec (policies : List GNode) (s : GNode × List Edge) :
    StageSpec policies s (stageAttachedPolicies policies s) := by
  unfold stageAttachedPolicies
  by_cases hl : s.1.label ∈ ["AWS::Iam::User", "AWS::Iam::Group", "AWS::Iam::Role"]
  · rw [if_pos hl]
    cases hv : s.1.get? "AttachedManagedPolicies" with
    | none => exact ⟨rfl, rfl, fun e he => Or.inl he⟩
    | some v =>
      refine ⟨?_, ?_, ?_⟩
      · by_cases hrem :
          ¬(transitiveLoop GNode.id s.1 policies (policyArnsOf v)).2.length > 0
        · simp only [hrem, if_true]; rfl
        · simp only [hrem, if_false]
      · by_cases hrem :
          ¬(transitiveLoop GNode.id s.1 policies (policyArnsOf v)).2.length > 0
        · simp only [hrem, if_true]; exact delProp_id s.1 (by decide)
        · simp only [hrem, if_false]
      · intro e he
        simp only at he
        rcases List.mem_append.mp he with h | h
        · exact Or.inl h
        · exact Or.inr (transitiveLoop_edges_spec _ _ _ _ e h)
  · rw [if_neg hl]
    exact ⟨rfl, rfl, fun e he => Or.inl he⟩

lemma stageGroupList_spec (groups : List GNode) (s : GNode × List Edge) :
    StageSpec groups s (stageGroupList groups s) := by
  unfold stageGroupList
  by_cases hl : s.1.label ∈ ["AWS::Iam::User"]
  · rw [if_pos hl]
    cases hv : s.1.get? "GroupList" with
    | none => exact ⟨rfl, rfl, fun e he => Or.inl he⟩
    | some v =>
      refine ⟨?_, ?_, ?_⟩
      · by_cases hrem :
          ¬(transitiveLoop GNode.nameOf s.1 groups (groupNamesOf v)).2.length > 0
        · simp only [hrem, if_true]; rfl
        · simp only [hrem, if_false]
      · by_cases hrem :
          ¬(transitiveLoop GNode.nameOf s.1 groups (groupNamesOf v)).2.length > 0
        · simp only [hrem, if_true]; exact delProp_id s.1 (by decide)
        · simp only [hrem, if_false]
      · intro e he
        simp only at he
        rcases List.mem_append.mp he with h | h
        · exact Or.inl h
        · exact Or.inr (transitiveLoop_edges_spec _ _ _ _ e h)
  · rw [if_neg hl]
    exact ⟨rfl, rfl, fun e he => Or.inl he⟩

lemma stageInstanceProfile_spec (instanceProfiles : List GNode)
    (s : GNode × List Edge) :
    StageSpec instanceProfiles s (stageInstanceProfile instanceProfiles s) := by
  unfold stageInstanceProfile
  by_cases hl : s.1.label ∈ ["AWS::Ec2::Instance"]
  · rw [if_pos hl]
    cases hv : s.1.get? "IamInstanceProfile" with
    | none => exact ⟨rfl, rfl, fun e he => Or.inl he⟩
    | some v =>
      dsimp only
      cases hf : instanceProfiles.find? (fun i => strOf i == (dictArnOf v).getD "") with
      | none => exact ⟨rfl, rfl, fun e he => Or.inl he⟩
      | some ip =>
        refine ⟨rfl, delProp_id s.1 (by decide), ?_⟩
        intro e he
        rcases List.mem_append.mp he with h | h
        · exact Or.inl h
        · rcases List.mem_singleton.mp h with rfl
          exact Or.inr ⟨rfl, ip, List.mem_of_find?_eq_some hf, rfl⟩
  · rw [if_neg hl]
    exact ⟨rfl, rfl, fun e he => Or.inl he⟩

lemma stageProfileRoles_spec (roles : List GNode) (s : GNode × List Edge) :
    StageSpec roles s (stageProfileRoles roles s) := by
  unfold stageProfileRoles
  by_cases hl : s.1.label ∈ ["AWS::Iam::InstanceProfile"]
  · rw [if_pos hl]
    cases hv : s.1.get? "Roles" with
    | none => exact ⟨rfl, rfl, fun e he => Or.inl he⟩
    | some v =>
      refine ⟨?_, ?_, ?_⟩
      · by_cases hrem :
          ¬(transitiveLoop GNode.id s.1 roles (roleArnsOf v)).2.length > 0
        · simp only [hrem, if_true]; rfl
        · simp only [hrem, if_false]
      · by_cases hrem :
          ¬(transitiveLoop GNode.id s.1 roles (roleArnsOf v)).2.length > 0
        · simp only [hrem, if_true]; exact delProp_id s.1 (by decide)
        · simp only [hrem, if_false]
      · intro e he
        simp only at he
        rcases List.mem_append.mp he with h | h
        · exact Or.inl h
        · exact Or.inr (transitiveLoop_edges_spec _ _ _ _ e h)
  · rw [if_neg hl]
    exact ⟨rfl, rfl, fun e he => Or.inl he⟩

lemma stageFunctionRole_spec (roles : List GNode) (s : GNode × List Edge) :
    StageSpec roles s (stageFunctionRole roles s) := by
  unfold stageFunctionRole
  by_cases hl : s.1.label ∈ ["AWS::Lambda::Function"]
  · rw [if_pos hl]
    cases hv : s.1.get? "Role" with
    | none => exact ⟨rfl, rfl, fun e he => Or.inl he⟩
    | some v =>
      cases v with
      | str roleArn =>
        dsimp only
        cases hf : roles.find? (fun r => strOf r == roleArn) with
        | none => exact ⟨rfl, rfl, fun e he => Or.inl he⟩
        | some role =>
          refine ⟨rfl, delProp_id s.1 (by decide), ?_⟩
          intro e he
          rcases List.mem_append.mp he with h | h
          · exact Or.inl h
          · rcases List.mem_singleton.mp h with rfl
            exact Or.inr ⟨rfl, role, List.mem_of_find?_eq_some hf, rfl⟩
      | vlist l => exact ⟨rfl, rfl, fun e he => Or.inl he⟩
      | vdict d => exact ⟨rfl, rfl, fun e he => Or.inl he⟩
  · rw [if_neg hl]
    exact ⟨rfl, rfl, fun e he => Or.inl he⟩

lemma processResource_edges (groups roles policies instanceProfiles : List GNode)
    (r0 : GNode) :
    ∀ e ∈ (processResource groups roles policies instanceProfiles r0).2,
      optId e.source = r0.id
      ∧ ∃ t, (t ∈ groups ∨ t ∈ roles ∨ t ∈ policies ∨ t ∈ instanceProfiles)
          ∧ e.target = some t := by
  intro e he
  unfold processResource at he
  have h1 := stageAttachedPolicies_spec policies (r0, [])
  set s1 := stageAttachedPolicies policies (r0, []) with hs1
  have h2 := stageGroupList_spec groups s1
  set s2 := stageGroupList groups s1 with hs2
  have h3 := stageInstanceProfile_spec instanceProfiles s2
  set s3 := stageInstanceProfile instanceProfiles s2 with hs3
  have h4 := stageProfileRoles_spec roles s3
  set s4 := stageProfileRoles roles s3 with hs4
  have h5 := stageFunctionRole_spec roles s4
  set s5 := stageFunctionRole roles s4 with hs5
  have hid1 : s1.1.id = r0.id := h1.2.1
  have hid2 : s2.1.id = r0.id := h2.2.1.trans hid1
  have hid3 : s3.1.id = r0.id := h3.2.1.trans hid2
  have hid4 : s4.1.id = r0.id := h4.2.1.trans hid3
  rcases h5.2.2 e he with he4 | ⟨hsrc, t, ht, htg⟩
  · rcases h4.2.2 e he4 with he3 | ⟨hsrc, t, ht, htg⟩
    · rcases h3.2.2 e he3 with he2 | ⟨hsrc, t, ht, htg⟩
      · rcases h2.2.2 e he2 with he1 | ⟨hsrc, t, ht, htg⟩
        · rcases h1.2.2 e he1 with he0 | ⟨hsrc, t, ht, htg⟩
          · exact absurd he0 (List.not_mem_nil e)
          · exact ⟨by rw [hsrc]; rfl, t, Or.inr (Or.inr (Or.inl ht)), htg⟩
        · exact ⟨by rw [hsrc, optId, hid1], t, Or.inl ht, htg⟩
      · exact ⟨by rw [hsrc, optId, hid2], t, Or.inr (Or.inr (Or.inr ht)), htg⟩
    · exact ⟨by rw [hsrc, optId, hid3], t, Or.inr (Or.inl ht), htg⟩
  · exact ⟨by rw [hsrc, optId, hid4], t, Or.inr (Or.inl ht), htg⟩

/-- Every edge created by the Transitive pass references only nodes of the
graph: its source is (by identity) an ingested resource and its target is
an ingested resource. -/
lemma loadTransitives_edges_closed (resources : List GNode) :
    ∀ e ∈ (loadTransitives resources).2,
      optId e.source ∈ resources.map GNode.id
      ∧ ∃ t ∈ resources, e.target = some t := by
  intro e he
  unfold loadTransitives at he
  simp only [List.mem_flatten, List.mem_map] at he
  obtain ⟨l, ⟨pr, ⟨r, hr, rfl⟩, rfl⟩, hel⟩ := he
  rcases processResource_edges _ _ _ _ r e hel with ⟨hsrc, t, hcoll, htg⟩
  refine ⟨hsrc ▸ List.mem_map.mpr ⟨r, hr, rfl⟩, t, ?_, htg⟩
  rcases hcoll with h | h | h | h <;> exact (List.mem_filter.mp h).1

/-! ### Deduplication of emitted Associative edges -/

lemma emitAssoc_go (g : List GNode) (r : GNode) :
    ∀ (arns : List String) (acc : List Edge), acc.Nodup →
      (arns.foldl (fun acc arn =>
          match edgeFor g r arn with
          | none => acc
          | some e => if e ∈ acc then acc else acc ++ [e]) acc).Nodup
      ∧ ∀ e ∈ arns.foldl (fun acc arn =>
            match edgeFor g r arn with
            | none => acc
            | some e => if e ∈ acc then acc else acc ++ [e]) acc,
          e ∈ acc ∨ ∃ x ∈ arns, edgeFor g r x = some e := by
  intro arns
  induction arns with
  | nil => intro acc h; exact ⟨h, fun e he => Or.inl he⟩
  | cons a arns ih =>
    intro acc hacc
    rw [List.foldl_cons]
    cases hstep : edgeFor g r a with
    | none =>
      simp only [hstep]
      rcases ih acc hacc with ⟨h1, h2⟩
      refine ⟨h1, fun e he => ?_⟩
      rcases h2 e he with h | ⟨x, hx, hfx⟩
      · exact Or.inl h
      · exact Or.inr ⟨x, List.mem_cons_of_mem a hx, hfx⟩
    | some e0 =>
      simp only [hstep]
      by_cases hin : e0 ∈ acc
      · rw [if_pos hin]
        rcases ih acc hacc with ⟨h1, h2⟩
        refine ⟨h1, fun e he => ?_⟩
        rcases h2 e he with h | ⟨x, hx, hfx⟩
        · exact Or.inl h
        · exact Or.inr ⟨x, List.mem_cons_of_mem a hx, hfx⟩
      · rw [if_neg hin]
        have hacc' : (acc ++ [e0]).Nodup := by
          rw [List.nodup_append]
          exact ⟨hacc, List.nodup_singleton e0,
            fun x hx1 hx2 => by
              rw [List.mem_singleton] at hx2; subst hx2; exact hin hx1⟩
        rcases ih (acc ++ [e0]) hacc' with ⟨h1, h2⟩
        refine ⟨h1, fun e he => ?_⟩
        rcases h2 e he with h | ⟨x, hx, hfx⟩
        · rcases List.mem_append.mp h with h' | h'
          · exact Or.inl h'
          · rcases List.mem_singleton.mp h' with rfl
            exact Or.inr ⟨a, List.mem_cons_self a arns, hstep⟩
        · exact Or.inr ⟨x, List.mem_cons_of_mem a hx, hfx⟩

lemma emitAssoc_spec (g : List GNode) (r : GNode) (arns : List String) :
    (emitAssoc g r arns).Nodup
    ∧ ∀ e ∈ emitAssoc g r arns, ∃ x ∈ arns, edgeFor g r x = some e := by
  have h := emitAssoc_go g r arns [] List.nodup_nil
  exact ⟨h.1, fun e he => (h.2 e he).resolve_left (List.not_mem_nil e)⟩

/-! ### Keyed lookups under unique keys -/

lemma key_inj {l : List (String × List String)}
    (hnd : (l.map Prod.fst).Nodup) :
    ∀ {a b : String × List String}, a ∈ l → b ∈ l → a.1 = b.1 → a = b := by
  induction l with
  | nil => intro a b ha; cases ha
  | cons x l ih =>
    intro a b ha hb hab
    rw [List.map_cons, List.nodup_cons] at hnd
    rcases List.mem_cons.mp ha with rfl | ha'
    · rcases List.mem_cons.mp hb with rfl | hb'
      · rfl
      · exact absurd (hab ▸ List.mem_map.mpr ⟨b, hb', rfl⟩) hnd.1
    · rcases List.mem_cons.mp hb with rfl | hb'
      · exact absurd (hab ▸ List.mem_map.mpr ⟨a, ha', rfl⟩) hnd.1
      · exact ih hnd.2 ha' hb' hab

lemma find?_key_of_nodup :
    ∀ {l : List (String × String)}, (keysOf l).Nodup →
      ∀ {k v : String}, (k, v) ∈ l →
        l.find? (fun q => q.1 == k) = some (k, v) := by
  intro l
  induction l with
  | nil => intro _ k v hm; cases hm
  | cons a l ih =>
    intro hnd k v hm
    rw [keysOf, List.map_cons, List.nodup_cons] at hnd
    rcases List.mem_cons.mp hm with rfl | hm'
    · rw [List.find?_cons_of_pos _ (by simp)]
    · by_cases hak : a.1 = k
      · exact absurd (hak ▸ List.mem_map.mpr ⟨(k, v), hm', rfl⟩) hnd.1
      · rw [List.find?_cons_of_neg _ (by simpa using hak)]
        exact ih hnd.2 hm'

lemma pyLookup_append_right {c f : List (String × String)}
    (hnd : (keysOf f).Nodup) {k v : String} (hm : (k, v) ∈ f) :
    pyLookup (c ++ f) k = some v := by
  unfold pyLookup
  rw [List.reverse_append, List.find?_append]
  have hndr : (keysOf f.reverse).Nodup := by
    rw [keysOf, List.map_reverse]
    exact (List.nodup_reverse).mpr (by rwa [keysOf] at hnd)
  rw [find?_key_of_nodup hndr (List.mem_reverse.mpr hm)]
  rfl

/-! ### Concrete sample data (used by witnesses and counterexamples) -/

def policyP : GNode :=
  { labels := ["AWS::Iam::Policy", "Resource"],
    props := [("Name", Value.str "P"),
              ("Arn", Value.str "arn:aws:iam::0123456789012:policy/P")] }

def roleR : GNode :=
  { labels := ["AWS::Iam::Role", "Resource"],
    props := [("Name", Value.str "R"),
              ("Arn", Value.str "arn:aws:iam::0123456789012:role/R"),
              ("AttachedManagedPolicies",
                Value.vlist [Value.vdict
                  [("PolicyName", Value.str "P"),
                   ("PolicyArn",
                    Value.str "arn:aws:iam::0123456789012:policy/P")]])] }

def groupG : GNode :=
  { labels := ["AWS::Iam::Group", "Resource"],
    props := [("Name", Value.str "admins"),
              ("Arn", Value.str "arn:aws:iam::0123456789012:group/admins")] }

def userU : GNode :=
  { labels := ["AWS::Iam::User", "Resource"],
    props := [("Name", Value.str "alice"),
              ("Arn", Value.str "arn:aws:iam::0123456789012:user/alice"),
              ("GroupList", Value.vlist [Value.str "admins"])] }

def userBob : GNode :=
  { labels := ["AWS::Iam::User", "Resource"],
    props := [("Name", Value.str "bob"),
              ("Arn", Value.str "arn:aws:iam::0123456789012:user/bob")] }

def roleS : GNode :=
  { labels := ["AWS::Iam::Role", "Resource"],
    props := [("Name", Value.str "S"),
              ("Arn", Value.str "arn:aws:iam::0123456789012:role/S")] }

def accountNode : GNode :=
  { labels := ["AWS::Account"],
    props := [("Name", Value.str "0123456789012"),
              ("Arn", Value.str "arn:aws:iam::0123456789012:root")] }

def wildcardTrustAction : Edge :=
  { elabel := "ACTION", props := [("Name", Value.str "sts:AssumeRole")],
    source := some accountNode, target := some roleR }

def specificTrustAction : Edge :=
  { elabel := "ACTION", props := [("Name", Value.str "sts:AssumeRole")],
    source := some userU, target := some roleR }

def targetlessEdge : Edge :=
  { elabel := "ACTION", props := [("Name", Value.str "s3:GetObject")],
    source := some userU, target := none }

def catalogLabelSample : String → String := fun _ => "AWS::Iam::User"

/-! ## Claim theorems -/

/-- Claim C5: For every valid association pair (R, S) matched by the
associative resolver, the emitted `Associative` edge is identical regardless
of which of R or S is iterated first: its (source, target) is the pair
ordered by identity string comparison, so there is a single canonical edge
per unordered pair. -/
theorem associative_symmetry (a b : GNode) (h : a.id ≠ b.id) :
    assocEdgeFor a b = assocEdgeFor b a
    ∧ (assocEdgeFor a b).source = some (orderPair a b).1
    ∧ (assocEdgeFor a b).target = some (orderPair a b).2
    ∧ (orderPair a b).1.id ≤ (orderPair a b).2.id := by
  unfold assocEdgeFor orderPair
  rcases lt_trichotomy a.id b.id with hlt | heq | hgt
  · rw [if_neg (not_lt.mpr (le_of_lt hlt)), if_pos hlt]
    exact ⟨rfl, rfl, rfl, le_of_lt hlt⟩
  · exact absurd heq h
  · rw [if_pos hgt, if_neg (not_lt.mpr (le_of_lt hgt))]
    exact ⟨rfl, rfl, rfl, le_of_lt hgt⟩

/-- Witness for C5 at a concrete pair with distinct identities. -/
theorem associative_symmetry_witness :
    assocEdgeFor userU groupG = assocEdgeFor groupG userU :=
  (associative_symmetry userU groupG (by decide)).1

/-- Claim C8: A client error whose code is an authorization-denial class
(`AccessDenied`, `AccessDeniedException`,
`IllegalLocationConstraintException`, `UnauthorizedOperation`) is caught
and logged as a warning, and the call behaves as if it returned zero
results (the initial empty result); a client error of any other code
propagates out of the wrapper unchanged; successes pass through.  The same
holds for the iterator form of the wrapper. -/
theorem swc_denial_isolation {α : Type} (empty : α) (c m : String)
    (items : List α) :
    (c ∈ swcCodes →
      swcHook empty (CallResult.clientError c m)
          = (CallResult.ok empty, [(LogLevel.warn, m)])
      ∧ swcIter items (some (c, m)) = (items, none, [(LogLevel.warn, m)]))
    ∧ (c ∉ swcCodes →
      swcHook empty (CallResult.clientError c m)
          = (CallResult.clientError c m, [])
      ∧ swcIter items (some (c, m)) = (items, some (c, m), []))
    ∧ (∀ a : α, swcHook empty (CallResult.ok a) = (CallResult.ok a, [])) := by
  refine ⟨fun h => ?_, fun h => ?_, fun a => rfl⟩
  · unfold swcHook swcIter
    dsimp only
    rw [if_pos h, if_pos h]
    exact ⟨rfl, rfl⟩
  · unfold swcHook swcIter
    dsimp only
    rw [if_neg h, if_neg h]
    exact ⟨rfl, rfl⟩

/-- Witness for C8: a denial code is absorbed, a foreign code propagates. -/
theorem swc_denial_isolation_witness :
    swcHook ("" : String) (CallResult.clientError "AccessDenied" "denied")
        = (CallResult.ok "", [(LogLevel.warn, "denied")])
    ∧ swcHook ("" : String) (CallResult.clientError "Throttling" "oops")
        = (CallResult.clientError "Throttling" "oops", []) :=
  ⟨((swc_denial_isolation "" "AccessDenied" "denied" ([] : List String)).1
      (by decide)).1,
   ((swc_denial_isolation "" "Throttling" "oops" ([] : List String)).2.1
      (by decide)).1⟩

/-- Claim C9: With a non-empty ARN allow-list, the catalog label of every
allowed ARN is merged into the type allow-list before ingestion; a
previously empty (match-everything) type allow-list becomes non-empty, and
a type then passes the filter iff it is the label of one of the allowed
ARNs — even though the user configured no type restriction. -/
theorem only_arns_narrow_types (label : String → String)
    (onlyArns types : List String) (t : String) (h : onlyArns ≠ []) :
    effectiveOnlyTypes label [] onlyArns ≠ []
    ∧ (t ∈ typeFilter types [] (effectiveOnlyTypes label [] onlyArns)
        ↔ t ∈ types ∧ t ∈ onlyArns.map label) := by
  have hlen : onlyArns.length > 0 := List.length_pos.mpr h
  have hne : ((onlyArns.map label).dedup).length ≠ 0 := by
    simp [List.length_eq_zero, List.dedup_eq_nil, h]
  constructor
  · unfold effectiveOnlyTypes
    rw [if_pos hlen]
    simp [List.dedup_eq_nil, h]
  · unfold typeFilter effectiveOnlyTypes
    rw [if_pos hlen]
    simp [List.mem_filter, List.mem_dedup, hne]

/-- Witness for C9: one allowed user ARN forces the type allow-list to the
user label, so the role type is rejected by the type filter. -/
theorem only_arns_narrow_types_witness :
    effectiveOnlyTypes catalogLabelSample []
        ["arn:aws:iam::0123456789012:user/alice"] ≠ []
    ∧ ("AWS::Iam::Role" ∈ typeFilter ["AWS::Iam::User", "AWS::Iam::Role"] []
          (effectiveOnlyTypes catalogLabelSample []
            ["arn:aws:iam::0123456789012:user/alice"])
        ↔ "AWS::Iam::Role" ∈ ["AWS::Iam::User", "AWS::Iam::Role"]
          ∧ "AWS::Iam::Role"
              ∈ ["arn:aws:iam::0123456789012:user/alice"].map catalogLabelSample) :=
  only_arns_narrow_types catalogLabelSample
    ["arn:aws:iam::0123456789012:user/alice"]
    ["AWS::Iam::User", "AWS::Iam::Role"] "AWS::Iam::Role" (by decide)

/-- Claim C10: During export, every edge whose target is `None` is silently
omitted from the emitted edge table: the exported row count equals the
number of edges with a present target, and is strictly smaller than the
edge count whenever some edge's target is `None`. -/
theorem export_skips_targetless_edges (stringify : Value → String)
    (label : String) (header : List String) (elements : List Edge) :
    (saveEdgeRows stringify label header elements).length
        = (elements.filter (fun e => !e.target.isNone)).length
    ∧ ((∃ e ∈ elements, e.target = none) →
        (saveEdgeRows stringify label header elements).length
          < elements.length) := by
  constructor
  · unfold saveEdgeRows
    rw [List.length_map]
  · rintro ⟨e, he, hnone⟩
    unfold saveEdgeRows
    rw [List.length_map]
    exact List.length_filter_lt_length_iff_exists.mpr ⟨e, he, by simp [hnone]⟩

/-- Witness for C10: of two edges, one targetless, only one row is
emitted. -/
theorem export_skips_targetless_edges_witness :
    (saveEdgeRows (fun _ => "") "ACTION" []
        [wildcardTrustAction, targetlessEdge]).length < 2 := by
  have h := (export_skips_targetless_edges (fun _ => "") "ACTION" []
      [wildcardTrustAction, targetlessEdge]).2
    ⟨targetlessEdge, by simp, rfl⟩
  simpa using h

/-- Claim C6 counterexample: Adding an `ACTION` edge to the empty manager
collection increases its size yet emits no event (`IngestionManager.add`
deliberately passes on `ACTION`/`TRUSTS` labels), refuting "an event is
emitted iff the collection's size increased". -/
theorem add_event_iff_growth_cex :
    (managerAdd [] (Element.edge wildcardTrustAction)).1.length
        = ([] : List Element).length + 1
    ∧ (managerAdd [] (Element.edge wildcardTrustAction)).2 = [] := by
  exact ⟨rfl, by decide⟩

/-- Claim C6 amended: Calling `add(e)` twice in succession leaves the
collection equal to the state after the first call and the second call
reports no added event (at most a repeated debug-level scope rejection in
`Ingestor.add`); an added (info-level) event is emitted *only if* the
collection's size increased — the converse fails, since `ACTION`/`TRUSTS`
additions (and, in `Ingestor.add`, additions outside the reported
categories) are silent. -/
theorem add_idempotent (g : List Element) (e : Element) (cfg : IngestorConfig) :
    managerAdd (managerAdd g e).1 e = ((managerAdd g e).1, [])
    ∧ (ingestorAdd cfg (ingestorAdd cfg g e).1 e).1 = (ingestorAdd cfg g e).1
    ∧ (∀ l ∈ (ingestorAdd cfg (ingestorAdd cfg g e).1 e).2,
        l.1 = LogLevel.debug)
    ∧ ((managerAdd g e).2 ≠ [] → (managerAdd g e).1.length = g.length + 1)
    ∧ (∀ l ∈ (ingestorAdd cfg g e).2, l.1 = LogLevel.info →
        (ingestorAdd cfg g e).1.length = g.length + 1) := by
  have hmgr : managerAdd (managerAdd g e).1 e = ((managerAdd g e).1, []) := by
    show managerAdd (elemsAdd g e) e = (elemsAdd g e, [])
    unfold managerAdd
    rw [elemsAdd_self]
    dsimp only
    rw [if_pos rfl]
  have hing : (ingestorAdd cfg (ingestorAdd cfg g e).1 e).1
        = (ingestorAdd cfg g e).1
      ∧ ∀ l ∈ (ingestorAdd cfg (ingestorAdd cfg g e).1 e).2,
          l.1 = LogLevel.debug := by
    by_cases c1 : ("Resource" ∈ e.labelsList ∨ "Generic" ∈ e.labelsList)
        ∧ e.labelOf ∉ cfg.types
    · have h1 : ∀ g', ingestorAdd cfg g' e
          = (g', [(LogLevel.debug,
              "Skipping: type does not match user specifications")]) := by
        intro g'; unfold ingestorAdd; rw [if_pos c1]
      rw [h1, h1]
      exact ⟨rfl, by intro l hl; rcases List.mem_singleton.mp hl with rfl; rfl⟩
    · by_cases c2 : ("Resource" ∈ e.labelsList ∨ "Generic" ∈ e.labelsList)
          ∧ "Resource" ∈ e.labelsList
          ∧ ((cfg.onlyArns.length > 0 ∧ e.idOf ∉ cfg.onlyArns)
             ∨ (cfg.skipArns.length > 0 ∧ e.idOf ∈ cfg.skipArns))
      · have h2 : ∀ g', ingestorAdd cfg g' e
            = (g', [(LogLevel.debug,
                "Skipping: ARN does not match user specifications")]) := by
          intro g'; unfold ingestorAdd; rw [if_neg c1, if_pos c2]
        rw [h2, h2]
        exact ⟨rfl, by intro l hl; rcases List.mem_singleton.mp hl with rfl; rfl⟩
      · have hfst : (ingestorAdd cfg g e).1 = elemsAdd g e := by
          unfold ingestorAdd; rw [if_neg c1, if_neg c2]
        rw [hfst]
        have h3 : ingestorAdd cfg (elemsAdd g e) e = (elemsAdd g e, []) := by
          unfold ingestorAdd
          rw [if_neg c1, if_neg c2, elemsAdd_self, if_pos rfl]
        rw [h3]
        exact ⟨rfl, by intro l hl; cases hl⟩
  have hgrow : (managerAdd g e).2 ≠ [] →
      (managerAdd g e).1.length = g.length + 1 := by
    intro hne
    rcases elemsAdd_length g e with h | h
    · exfalso
      apply hne
      show (if (elemsAdd g e).length = g.length then []
        else if "TRANSITIVE" ∈ e.labelsList
          then [(LogLevel.info, "Added relationship")]
        else if "ACTION" ∈ e.labelsList ∨ "TRUSTS" ∈ e.labelsList then []
        else [(LogLevel.info, "Added element")]) = []
      rw [if_pos h]
    · exact h
  have hinfo : ∀ l ∈ (ingestorAdd cfg g e).2, l.1 = LogLevel.info →
      (ingestorAdd cfg g e).1.length = g.length + 1 := by
    intro l hl hlinfo
    by_cases c1 : ("Resource" ∈ e.labelsList ∨ "Generic" ∈ e.labelsList)
        ∧ e.labelOf ∉ cfg.types
    · unfold ingestorAdd at hl
      rw [if_pos c1] at hl
      rcases List.mem_singleton.mp hl with rfl
      simp at hlinfo
    · by_cases c2 : ("Resource" ∈ e.labelsList ∨ "Generic" ∈ e.labelsList)
          ∧ "Resource" ∈ e.labelsList
          ∧ ((cfg.onlyArns.length > 0 ∧ e.idOf ∉ cfg.onlyArns)
             ∨ (cfg.skipArns.length > 0 ∧ e.idOf ∈ cfg.skipArns))
      · unfold ingestorAdd at hl
        rw [if_neg c1, if_pos c2] at hl
        rcases List.mem_singleton.mp hl with rfl
        simp at hlinfo
      · unfold ingestorAdd at hl ⊢
        rw [if_neg c1, if_neg c2] at hl ⊢
        rcases elemsAdd_length g e with h | h
        · rw [if_pos h] at hl
          cases hl
        · exact h
  exact ⟨hmgr, hing.1, hing.2, hgrow, hinfo⟩

/-- Witness for C6 (amended): re-adding a node is a no-op with no event. -/
theorem add_idempotent_witness :
    managerAdd (managerAdd [] (Element.node userU)).1 (Element.node userU)
        = ((managerAdd [] (Element.node userU)).1, []) :=
  (add_idempotent [] (Element.node userU) ⟨[], [], []⟩).1

/-- Claim C3: A role trust statement whose principal is the account-wide
wildcard for this account produces exactly one `Trusts` edge from the
trusted role (the action's target) to each concrete IAM user or role
already known in the account — distinct entities give distinct edges — and
adds zero `Action` edges for that statement. -/
theorem account_wildcard_trust_expansion (account : String)
    (resources : List GNode) (a : Edge) (src : GNode)
    (hsrc : a.source = some src)
    (hname : strStartsWith a.strOf "sts:AssumeRole" = true)
    (hwild : isAccountWide account src = true) :
    trustStatements account (iamEntities resources) [a]
        = (iamEntities resources).map
            (fun entity => mkTrusts a.props a.target (some entity))
    ∧ (trustStatements account (iamEntities resources) [a]).length
        = (iamEntities resources).length
    ∧ (∀ e ∈ trustStatements account (iamEntities resources) [a],
        e.elabel = "TRUSTS")
    ∧ ((iamEntities resources).Nodup →
        (trustStatements account (iamEntities resources) [a]).Nodup) := by
  have heq : trustStatements account (iamEntities resources) [a]
      = (iamEntities resources).map
          (fun entity => mkTrusts a.props a.target (some entity)) := by
    unfold trustStatements
    simp only [List.filter_cons, hname, if_true, List.filter_nil,
      List.flatMap_cons, List.flatMap_nil, List.append_nil]
    rw [hsrc]
    dsimp only
    rw [if_pos hwild]
  refine ⟨heq, ?_, ?_, ?_⟩
  · rw [heq, List.length_map]
  · rw [heq]
    intro e he
    rcases List.mem_map.mp he with ⟨entity, _, rfl⟩
    rfl
  · intro hnd
    rw [heq]
    refine List.Nodup.map ?_ hnd
    intro x y hxy
    have h := congrArg Edge.target hxy
    simpa [mkTrusts] using h

/-- Witness for C3: three known IAM identities yield exactly three `Trusts`
edges for one account-wildcard trust statement. -/
theorem account_wildcard_trust_expansion_witness :
    (trustStatements "0123456789012" (iamEntities [userU, userBob, roleS])
        [wildcardTrustAction]).length = 3 := by
  have h := account_wildcard_trust_expansion "0123456789012"
    [userU, userBob, roleS] wildcardTrustAction accountNode rfl
    (by decide) (by decide)
  rw [h.2.1]
  rfl

/-- Claim C4 counterexample: At a concrete specific-principal trust statement
(principal `userU`, role `roleR`), the produced `Trusts` edge has the role
as source and the principal as target — the claim's orientation
(source = principal, target = role) is false here since the two nodes
differ. -/
theorem specific_trust_direction_cex :
    (trustStatements "0123456789012" [] [specificTrustAction]).map Edge.elabel
        = ["ACTION", "TRUSTS"]
    ∧ (trustStatements "0123456789012" [] [specificTrustAction]).map Edge.source
        = [some userU, some roleR]
    ∧ (trustStatements "0123456789012" [] [specificTrustAction]).map Edge.target
        = [some roleR, some userU]
    ∧ (some roleR : Option GNode) ≠ some userU := by
  refine ⟨by decide, by decide, by decide, by decide⟩

/-- Claim C4 amended: A role trust statement with a specific, non-wildcard
principal whose action is in the `sts:AssumeRole*` family keeps both the
Action edge and a direct `Trusts` edge — whose source is the *role* (the
action's target) and whose target is the *principal* (the action's
source). -/
theorem specific_trust_keeps_both (account : String) (entities : List GNode)
    (a : Edge) (src : GNode)
    (hsrc : a.source = some src)
    (hname : strStartsWith a.strOf "sts:AssumeRole" = true)
    (hwild : isAccountWide account src = false) :
    trustStatements account entities [a]
        = [a, mkTrusts a.props a.target a.source]
    ∧ (mkTrusts a.props a.target a.source).source = a.target
    ∧ (mkTrusts a.props a.target a.source).target = a.source := by
  refine ⟨?_, rfl, rfl⟩
  unfold trustStatements
  simp only [List.filter_cons, hname, if_true, List.filter_nil,
    List.flatMap_cons, List.flatMap_nil, List.append_nil]
  rw [hsrc]
  dsimp only
  rw [if_neg (by rw [hwild]; exact Bool.false_ne_true)]

/-- Witness for C4 (amended) at the concrete specific-principal input. -/
theorem specific_trust_keeps_both_witness :
    trustStatements "0123456789012" [] [specificTrustAction]
        = [specificTrustAction,
           mkTrusts specificTrustAction.props (some roleR) (some userU)] := by
  have h := specific_trust_keeps_both "0123456789012" [] specificTrustAction
    userU rfl (by decide) (by decide)
  exact h.1

/-- Claim C1: The sample scenario of the claim holds: ingesting role `R` with
`AttachedManagedPolicies=[P]` and policy `P` yields one `Transitive` edge
R→P and the property is removed.  But the claim's universal "deleted iff
every reference resolved" fails on the `GroupList` branch: for user `U` with
`GroupList=["admins"]` and group `G` named "admins" present, the single
reference resolves and the edge U→G is created, yet `GroupList` survives —
the cleanup of line 130-131 filters the group *names* by `str(group)`, the
group's ARN identity, which never matches, so the list never empties. -/
theorem transitive_cleanup_divergence :
    ((loadTransitives [roleR, policyP]).2 = [mkTransitive roleR policyP]
      ∧ ((loadTransitives [roleR, policyP]).1.headD roleR).get?
          "AttachedManagedPolicies" = none)
    ∧ ((loadTransitives [userU, groupG]).2 = [mkTransitive userU groupG]
      ∧ ((loadTransitives [userU, groupG]).1.headD userU).get? "GroupList"
          = some (Value.vlist [Value.str "admins"])) := by
  exact ⟨⟨by decide, by decide⟩, by decide, by decide⟩

lemma edgeFor_mem {g : List GNode} {r : GNode} {arn : String} {e : Edge}
    (h : edgeFor g r arn = some e) : ∃ s ∈ g, e = assocEdgeFor r s := by
  unfold edgeFor at h
  cases hf : g.find? (fun x => x.id == arn) with
  | none => rw [hf] at h; cases h
  | some s =>
    rw [hf] at h
    exact ⟨s, List.mem_of_find?_eq_some hf, (Option.some_inj.mp h).symm⟩

lemma assocEdgeFor_endpoints (r s : GNode) :
    ((assocEdgeFor r s).source = some r ∨ (assocEdgeFor r s).source = some s)
    ∧ ((assocEdgeFor r s).target = some r ∨ (assocEdgeFor r s).target = some s) := by
  unfold assocEdgeFor orderPair
  by_cases h : s.id < r.id
  · rw [if_pos h]
    exact ⟨Or.inr rfl, Or.inl rfl⟩
  · rw [if_neg h]
    exact ⟨Or.inl rfl, Or.inr rfl⟩

/-- Claim C7: With the ARN allow-list `[arn]` and a batch A, B, C in which
only A carries the allowed identity (and A's type passes the type filter),
admission yields exactly A among the graph's nodes; the admission is
reported at info level and the two rejections at diagnostic (debug) level,
never as errors.  Moreover no edge referencing an excluded node is ever
created: every `Transitive` edge produced by the inference pass references
(by identity) only ingested resources, and every `Associative` edge links
the iterated resource with an entity found in the graph. -/
theorem arn_allowlist_scope (types : List String) (arn : String)
    (A B C : GNode)
    (hA : A.id = arn) (hB : B.id ≠ arn) (hC : C.id ≠ arn)
    (hAr : "Resource" ∈ A.labels) (hBr : "Resource" ∈ B.labels)
    (hCr : "Resource" ∈ C.labels) (hAt : A.label ∈ types) :
    (ingestBatch ⟨types, [arn], []⟩ []
        [Element.node A, Element.node B, Element.node C]).1 = [Element.node A]
    ∧ (ingestBatch ⟨types, [arn], []⟩ []
        [Element.node A, Element.node B, Element.node C]).2.map Prod.fst
        = [LogLevel.info, LogLevel.debug, LogLevel.debug]
    ∧ (∀ resources : List GNode, ∀ e ∈ (loadTransitives resources).2,
        optId e.source ∈ resources.map GNode.id ∧ ∃ t ∈ resources, e.target = some t)
    ∧ (∀ (g : List GNode) (r : GNode) (arns : List String),
        ∀ e ∈ emitAssoc g r arns, ∃ s ∈ g,
          e = assocEdgeFor r s
          ∧ (e.source = some r ∨ e.source = some s)
          ∧ (e.target = some r ∨ e.target = some s)) := by
  have hstepA : ingestorAdd ⟨types, [arn], []⟩ [] (Element.node A)
      = ([Element.node A], [(LogLevel.info, "Added Resource")]) := by
    unfold ingestorAdd
    dsimp only
    rw [if_neg (fun h => h.2 hAt),
      if_neg (fun h => by
        rcases h.2.2 with h' | h'
        · exact h'.2 (hA ▸ List.mem_singleton.mpr rfl)
        · simp at h')]
    have he : elemsAdd [] (Element.node A) = [Element.node A] := rfl
    rw [he, if_neg (by simp),
      if_pos (show "Resource" ∈ (Element.node A).labelsList from hAr)]
  have hreject : ∀ (X : GNode), X.id ≠ arn → "Resource" ∈ X.labels →
      ∃ msg, ingestorAdd ⟨types, [arn], []⟩ [Element.node A] (Element.node X)
        = ([Element.node A], [(LogLevel.debug, msg)]) := by
    intro X hX hXr
    by_cases h1 : (("Resource" ∈ (Element.node X).labelsList
        ∨ "Generic" ∈ (Element.node X).labelsList))
        ∧ (Element.node X).labelOf ∉ types
    · refine ⟨"Skipping: type does not match user specifications", ?_⟩
      unfold ingestorAdd
      dsimp only
      rw [if_pos h1]
    · refine ⟨"Skipping: ARN does not match user specifications", ?_⟩
      unfold ingestorAdd
      dsimp only
      rw [if_neg h1, if_pos ?_]
      refine ⟨Or.inl hXr, hXr, Or.inl ⟨by simp, ?_⟩⟩
      intro hmem
      exact hX (List.mem_singleton.mp hmem)
  obtain ⟨mB, hstepB⟩ := hreject B hB hBr
  obtain ⟨mC, hstepC⟩ := hreject C hC hCr
  have hfold : ingestBatch ⟨types, [arn], []⟩ []
      [Element.node A, Element.node B, Element.node C]
      = ([Element.node A],
         [(LogLevel.info, "Added Resource"), (LogLevel.debug, mB),
          (LogLevel.debug, mC)]) := by
    unfold ingestBatch
    rw [List.foldl_cons]
    dsimp only
    rw [hstepA]
    dsimp only
    rw [List.foldl_cons]
    dsimp only
    rw [hstepB]
    dsimp only
    rw [List.foldl_cons]
    dsimp only
    rw [hstepC]
    rfl
  refine ⟨by rw [hfold], by rw [hfold]; rfl, loadTransitives_edges_closed, ?_⟩
  intro g r arns e he
  obtain ⟨x, _, hfx⟩ := (emitAssoc_spec g r arns).2 e he
  obtain ⟨s, hs, rfl⟩ := edgeFor_mem hfx
  exact ⟨s, hs, rfl, assocEdgeFor_endpoints r s⟩

/-- Witness for C7 at a concrete batch: only `userU`'s ARN is allowed, so
the resulting graph holds exactly `userU`. -/
theorem arn_allowlist_scope_witness :
    (ingestBatch ⟨["AWS::Iam::User", "AWS::Iam::Role"],
        ["arn:aws:iam::0123456789012:user/alice"], []⟩ []
        [Element.node userU, Element.node userBob, Element.node roleS]).1
      = [Element.node userU] := by
  have h := arn_allowlist_scope ["AWS::Iam::User", "AWS::Iam::Role"]
    "arn:aws:iam::0123456789012:user/alice" userU userBob roleS
    rfl (by decide) (by decide) (by decide) (by decide) (by decide) (by decide)
  exact h.1

/-- Claim C2: For an associative resolution with ambiguous captures (unique
capture names, at least one capture with more than one candidate): exactly
the product of the ambiguous captures' cardinalities is constructed and
attempted — no more, no fewer; every constructed reference holds each
single-valued (non-ambiguous) capture fixed at its unique value; and the
emission over any candidate list produces no duplicate edges, each emitted
edge being determined by one attempted candidate identity — hence at most
one `Associative` edge per distinct existing target identity. -/
theorem ambiguity_completeness (refs0 : List (String × List String))
    (g : List GNode) (r : GNode) (arns : List String)
    (hnd : (refs0.map Prod.fst).Nodup)
    (hamb : ∃ p ∈ refs0, p.2.length > 1) :
    (codeRefs refs0).length
        = ((refs0.filter (fun p => decide (p.2.length > 1))).map
            (fun p => p.2.length)).prod
    ∧ (∀ ref ∈ codeRefs refs0, ∀ p ∈ refs0, p.2.length = 1 →
        pyLookup ref p.1 = p.2.head?)
    ∧ (emitAssoc g r arns).Nodup
    ∧ (∀ e ∈ emitAssoc g r arns, ∃ x ∈ arns, edgeFor g r x = some e) := by
  have hall : refs0.all (fun p => p.2.length == 1) = false := by
    obtain ⟨p, hp, hlen⟩ := hamb
    refine List.all_eq_false.mpr ⟨p, hp, ?_⟩
    simp only [beq_iff_eq]
    omega
  have hndamb : ((refs0.filter (fun p => decide (p.2.length > 1))).map
      Prod.fst).Nodup :=
    List.Nodup.sublist ((List.filter_sublist refs0).map Prod.fst) hnd
  refine ⟨?_, ?_, (emitAssoc_spec g r arns).1, (emitAssoc_spec g r arns).2⟩
  · unfold codeRefs
    rw [if_neg (by simp [hall])]
    dsimp only
    rw [List.length_map, comboRefs_length _ hndamb]
  · intro ref href p hp hlen1
    unfold codeRefs at href
    rw [if_neg (by simp [hall])] at href
    dsimp only at href
    obtain ⟨c, _, rfl⟩ := List.mem_map.mp href
    have hfix : (p.1, p.2.headD "")
        ∈ (refs0.filter (fun p => !decide (p.2.length > 1))).map
            (fun p => (p.1, p.2.headD "")) := by
      refine List.mem_map.mpr ⟨p, List.mem_filter.mpr ⟨hp, ?_⟩, rfl⟩
      simp [hlen1]
    have hndfix : (keysOf ((refs0.filter (fun p => !decide (p.2.length > 1))).map
        (fun p => (p.1, p.2.headD "")))).Nodup := by
      have hkeys : keysOf ((refs0.filter (fun p => !decide (p.2.length > 1))).map
            (fun p => (p.1, p.2.headD "")))
          = (refs0.filter (fun p => !decide (p.2.length > 1))).map Prod.fst := by
        rw [keysOf, List.map_map]
        rfl
      rw [hkeys]
      exact List.Nodup.sublist ((List.filter_sublist refs0).map Prod.fst) hnd
    rw [pyLookup_append_right hndfix hfix]
    cases hv : p.2 with
    | nil => rw [hv] at hlen1; cases hlen1
    | cons x xs => simp

/-- Witness for C2: captures A (2 values), B (1 value), C (3 values) yield
exactly 2·3 = 6 candidate references. -/
theorem ambiguity_completeness_witness :
    (codeRefs [("A", ["1", "2"]), ("B", ["x"]), ("C", ["u", "v", "w"])]).length
      = 6 := by
  have h := ambiguity_completeness
    [("A", ["1", "2"]), ("B", ["x"]), ("C", ["u", "v", "w"])] [] userU []
    (by decide) ⟨("A", ["1", "2"]), by decide, by decide⟩
  rw [h.1]
  rfl

end Awspx
